import Mathlib

/-!
Shallow embedding of the Kazi source-control tool (`src/kazi/main.py`).

The repository keeps three persisted collections: a staging list of file
paths (`staging.json`), an append-only commit log (`commits.json`), and a
branch table (`branches.json`, a Python dict from branch name to
`{commits, active}` kept in insertion order).  Every operation is a
load-validate-mutate-store cycle, embedded here as a pure function from a
`KaziState` to `Except KaziError KaziState`: an error result corresponds to
the Python function printing a message and returning (or raising) before
any collection is written back, so on an error the persisted state is
unchanged.
-/

/-- Outcomes the Python code signals by printing a message and returning
early, plus `stopIteration` for the uncaught exception raised by
`next(...)` in `kazi_commit` when no branch is active. -/
inductive KaziError where
  | repositoryNotFound
  | fileNotFound
  | nothingToCommit
  | branchNotFound
  | branchAlreadyExists
  | stopIteration
  deriving DecidableEq

/-- One value of the `branches.json` dict: an ordered list of commit IDs
and the active flag. -/
structure Branch where
  commits : List Nat
  active : Bool
  deriving DecidableEq

/-- One record of `commits.json`, built by `kazi_commit`:
`{'id': ..., 'message': ..., 'files': ..., 'timestamp': ...}`. -/
structure Commit where
  id : Nat
  message : String
  files : List String
  timestamp : String
  deriving DecidableEq

/-- The three persisted collections plus whether the repository directory
exists (`os.path.exists(self.kazi_dir)`).  `branches` is an association
list in insertion order, mirroring a Python dict; Python dict keys are
unique, so theorems that need it take a `Nodup` hypothesis on the keys. -/
structure KaziState where
  initialized : Bool
  staging : List String
  commits : List Commit
  branches : List (String × Branch)
  deriving DecidableEq

/-- Dict lookup `branches[name]`: the first entry with the given key. -/
def lookupBranch (name : String) : List (String × Branch) → Option Branch
  | [] => none
  | (n, b) :: rest => if n = name then some b else lookupBranch name rest

/-- The branch-name argument of
`next(branch for branch, data in branches.items() if data['active'])`:
the key of the first entry whose `active` flag is set, or `none` when the
generator is exhausted (Python then raises `StopIteration`). -/
def findFirstActive : List (String × Branch) → Option String
  | [] => none
  | (n, b) :: rest => if b.active then some n else findFirstActive rest

/-- Number of entries of the branch table whose `active` flag is set. -/
def countActive (l : List (String × Branch)) : Nat :=
  (l.filter (fun p => p.2.active)).length

/-- Names of the branches whose `active` flag is set, in table order. -/
def activeNames (l : List (String × Branch)) : List String :=
  (l.filter (fun p => p.2.active)).map Prod.fst

/-- The loop `for branch in branches: branches[branch]['active'] = False`
of `kazi_checkout`. -/
def deactivateAll (l : List (String × Branch)) : List (String × Branch) :=
  l.map (fun p => (p.1, { p.2 with active := false }))

/-- The assignment `branches[branch_name]['active'] = True` of
`kazi_checkout`: update the (first) entry with the given key. -/
def activateBranch (name : String) : List (String × Branch) → List (String × Branch)
  | [] => []
  | (n, b) :: rest =>
      if n = name then (n, { b with active := true }) :: rest
      else (n, b) :: activateBranch name rest

/-- In-place replacement of `branches[name]['commits']` by a new list
(used by `kazi_merge`, which mutates the commit lists through aliases and
then dumps the whole dict). -/
def updateBranchCommits (name : String) (cs : List Nat) :
    List (String × Branch) → List (String × Branch)
  | [] => []
  | (n, b) :: rest =>
      if n = name then (n, { b with commits := cs }) :: rest
      else (n, b) :: updateBranchCommits name cs rest

/-- The statement `branches[active_branch]['commits'].append(commit_id)`
of `kazi_commit`. -/
def appendToBranchCommits (name : String) (cid : Nat) :
    List (String × Branch) → List (String × Branch)
  | [] => []
  | (n, b) :: rest =>
      if n = name then (n, { b with commits := b.commits ++ [cid] }) :: rest
      else (n, b) :: appendToBranchCommits name cid rest

/-- Conflict detection and resolution of `kazi_merge`:
`conflicts = [c for c in source_commits if c in target_commits]`; when
conflicts exist and the operator answers `"s"` (keep source), each
conflicting ID is removed from the source list via `list.remove`, which
deletes the first occurrence (every removal finds an occurrence here, so
`List.erase` matches `list.remove` exactly); any other answer (`"t"` or
skip) leaves the source list unchanged. -/
def resolveSource (resolution : String) (source_commits target_commits : List Nat) :
    List Nat :=
  let conflicts := source_commits.filter (fun c => decide (c ∈ target_commits))
  if conflicts = [] then source_commits
  else if resolution = "s" then conflicts.foldl (fun l c => l.erase c) source_commits
  else source_commits

/-- The statement
`branches[target].commits.extend(c for c in source_commits if c not in target_commits)`
of `kazi_merge`.  `target_commits` aliases the very list being extended and
the generator is consumed lazily, so each candidate is tested against the
already-extended list: an ID is appended only if it is not yet present,
hence no ID is ever appended twice. -/
def extendDedup (target source : List Nat) : List Nat :=
  source.foldl (fun acc c => if c ∈ acc then acc else acc ++ [c]) target

/-- `kazi_add`: stage a file.  The Python function checks the repository
directory, then that the file exists on disk (`fs` lists the paths that
exist), then appends the path to the staging list only if not already
present.  It returns `None` on every path; the `Option Nat` component
records that returned value (always `none`), so that claims about the
return value are expressible. -/
def kazi_add (fs : List String) (file_path : String) (st : KaziState) :
    Except KaziError (KaziState × Option Nat) :=
  if st.initialized = false then .error .repositoryNotFound
  else if file_path ∉ fs then .error .fileNotFound
  else if file_path ∈ st.staging then .ok (st, none)
  else .ok ({ st with staging := st.staging ++ [file_path] }, none)

/-- `kazi_commit`: commit the staged files with a message.  The timestamp
(`datetime.now().isoformat()`) is an input of the embedding.  The active
branch is the first entry with `active = true`; when none exists the
Python `next(...)` raises `StopIteration` before any file is written. -/
def kazi_commit (message timestamp : String) (st : KaziState) :
    Except KaziError KaziState :=
  if st.initialized = false then .error .repositoryNotFound
  else if st.staging = [] then .error .nothingToCommit
  else
    match findFirstActive st.branches with
    | none => .error .stopIteration
    | some active_branch =>
        let commit_id := st.commits.length + 1
        .ok { st with
              staging := [],
              commits := st.commits ++
                [{ id := commit_id, message := message,
                   files := st.staging, timestamp := timestamp }],
              branches := appendToBranchCommits active_branch commit_id st.branches }

/-- `kazi_create_branch`: insert `{branch_name: {'commits': [], 'active': False}}`
at the end of the dict (Python dicts keep insertion order). -/
def kazi_create_branch (branch_name : String) (st : KaziState) :
    Except KaziError KaziState :=
  if st.initialized = false then .error .repositoryNotFound
  else
    match lookupBranch branch_name st.branches with
    | some _ => .error .branchAlreadyExists
    | none => .ok { st with branches := st.branches ++ [(branch_name, ⟨[], false⟩)] }

/-- `kazi_checkout`: deactivate every branch, then activate `branch_name`.
The staging list and the commit log are not touched. -/
def kazi_checkout (branch_name : String) (st : KaziState) :
    Except KaziError KaziState :=
  if st.initialized = false then .error .repositoryNotFound
  else
    match lookupBranch branch_name st.branches with
    | none => .error .branchNotFound
    | some _ =>
        .ok { st with branches := activateBranch branch_name (deactivateAll st.branches) }

/-- `kazi_merge`: merge `source_branch` into `target_branch` under the
operator's `resolution` answer.  In Python, `source_commits` and
`target_commits` alias the lists stored in the dict.  When the two names
are equal the two aliases are the same list: the conflict list is the
whole list, keep-source removals shrink that single shared list, and the
final `extend` appends nothing because every generated element is already
a member of the list it is being appended to.  When the names differ, the
keep-source removals are persisted on the source branch and the target is
extended with the lazily deduplicated new IDs. -/
def kazi_merge (resolution source_branch target_branch : String) (st : KaziState) :
    Except KaziError KaziState :=
  if st.initialized = false then .error .repositoryNotFound
  else
    match lookupBranch source_branch st.branches, lookupBranch target_branch st.branches with
    | some bS, some bT =>
        if source_branch = target_branch then
          let S := resolveSource resolution bS.commits bS.commits
          .ok { st with branches := updateBranchCommits target_branch S st.branches }
        else
          let S := resolveSource resolution bS.commits bT.commits
          let T := extendDedup bT.commits S
          .ok { st with branches :=
                  (updateBranchCommits target_branch T
                    (updateBranchCommits source_branch S st.branches)) }
    | _, _ => .error .branchNotFound

/-- `kazi_diff`: the two one-sided commit-ID set differences, computed in
Python as `set(branches[b1]['commits']) - set(branches[b2]['commits'])`
and vice versa.  Read-only: no collection is written. -/
def kazi_diff (branch1 branch2 : String) (st : KaziState) :
    Except KaziError (Finset Nat × Finset Nat) :=
  if st.initialized = false then .error .repositoryNotFound
  else
    match lookupBranch branch1 st.branches, lookupBranch branch2 st.branches with
    | some b1, some b2 =>
        .ok (b1.commits.toFinset \ b2.commits.toFinset,
             b2.commits.toFinset \ b1.commits.toFinset)
    | _, _ => .error .branchNotFound

/-- The state `kazi_init` writes for a fresh repository: empty staging,
empty commit log, a single branch `main` with `active = true`. -/
def initialState : KaziState :=
  { initialized := true, staging := [], commits := [],
    branches := [("main", { commits := [], active := true })] }

/-- `kazi_init`: creates the fresh layout, or returns with the state
untouched when the repository directory already exists. -/
def kazi_init (st : KaziState) : KaziState :=
  if st.initialized then st else initialState

/-- A sequence of `kazi_checkout` calls, each applied to the state left by
the previous one (a failed call leaves the state unchanged, matching the
Python early return). -/
def applyCheckouts (names : List String) (st : KaziState) : KaziState :=
  names.foldl (fun s n =>
    match kazi_checkout n s with
    | .ok s' => s'
    | .error _ => s) st

/-- A sequence of `kazi_add` calls, each applied to the state left by the
previous one (a failed call leaves the state unchanged). -/
def applyAdds (fs : List String) (paths : List String) (st : KaziState) : KaziState :=
  paths.foldl (fun s p =>
    match kazi_add fs p s with
    | .ok (s', _) => s'
    | .error _ => s) st

theorem countActive_cons (p : String × Branch) (l : List (String × Branch)) :
    countActive (p :: l) = if p.2.active then countActive l + 1 else countActive l := by
  cases hb : p.2.active <;> simp [countActive, List.filter_cons, hb]

theorem countActive_pos_of_lookup_active {n : String} {b : Branch}
    {l : List (String × Branch)} (h : lookupBranch n l = some b) (ha : b.active = true) :
    0 < countActive l := by
  induction l with
  | nil => simp [lookupBranch] at h
  | cons p rest ih =>
    obtain ⟨m, c⟩ := p
    rw [countActive_cons]
    by_cases hm : m = n
    · simp only [lookupBranch, if_pos hm, Option.some.injEq] at h
      subst h
      simp [ha]
    · simp only [lookupBranch, if_neg hm] at h
      have := ih h
      split <;> omega

theorem findFirstActive_of_unique {n : String} {b : Branch} {l : List (String × Branch)}
    (hcount : countActive l = 1) (h : lookupBranch n l = some b) (ha : b.active = true) :
    findFirstActive l = some n := by
  induction l with
  | nil => simp [lookupBranch] at h
  | cons p rest ih =>
    obtain ⟨m, c⟩ := p
    rw [countActive_cons] at hcount
    by_cases hc : c.active
    · simp only [findFirstActive, hc, if_true, Option.some.injEq]
      by_cases hm : m = n
      · exact hm
      · exfalso
        simp only [lookupBranch, if_neg hm] at h
        have hpos := countActive_pos_of_lookup_active h ha
        simp only [hc, if_true] at hcount
        omega
    · simp only [findFirstActive, hc, if_false]
      by_cases hm : m = n
      · exfalso
        simp only [lookupBranch, if_pos hm, Option.some.injEq] at h
        subst h
        simp [ha] at hc
      · simp only [lookupBranch, if_neg hm] at h
        simp only [hc, if_false] at hcount
        exact ih hcount h

theorem lookupBranch_appendToBranchCommits_self (name : String) (cid : Nat)
    (l : List (String × Branch)) :
    lookupBranch name (appendToBranchCommits name cid l) =
      (lookupBranch name l).map (fun b => { b with commits := b.commits ++ [cid] }) := by
  induction l with
  | nil => simp [lookupBranch, appendToBranchCommits]
  | cons p rest ih =>
    obtain ⟨m, c⟩ := p
    by_cases hm : m = name
    · simp [appendToBranchCommits, lookupBranch, hm]
    · simp [appendToBranchCommits, lookupBranch, hm, ih]

theorem findFirstActive_mem_keys {l : List (String × Branch)} {n : String}
    (h : findFirstActive l = some n) : n ∈ l.map Prod.fst := by
  induction l with
  | nil => simp [findFirstActive] at h
  | cons p rest ih =>
    obtain ⟨m, c⟩ := p
    by_cases hc : c.active
    · simp only [findFirstActive, hc, if_true, Option.some.injEq] at h
      simp [h]
    · simp only [findFirstActive, hc, if_false] at h
      simp [ih h]

theorem lookup_active_of_findFirstActive {l : List (String × Branch)} {n : String} {b : Branch}
    (hnd : (l.map Prod.fst).Nodup) (hf : findFirstActive l = some n)
    (hl : lookupBranch n l = some b) : b.active = true := by
  induction l with
  | nil => simp [findFirstActive] at hf
  | cons p rest ih =>
    obtain ⟨m, c⟩ := p
    simp only [List.map_cons, List.nodup_cons] at hnd
    by_cases hc : c.active
    · simp only [findFirstActive, hc, if_true, Option.some.injEq] at hf
      subst hf
      have hcb : c = b := by simpa [lookupBranch] using hl
      exact hcb ▸ hc
    · simp only [findFirstActive, hc, if_false] at hf
      have hne : m ≠ n := fun hmn => hnd.1 (hmn ▸ findFirstActive_mem_keys hf)
      simp only [lookupBranch, if_neg hne] at hl
      exact ih hnd.2 hf hl

/-- C1: on an initialized repository with non-empty staging and exactly one
active branch, `commit` appends exactly one new record to the commit log
(its id is the previous log length plus one and its files are the staged
paths), appends that id to the active branch's commit list, and resets the
staging set to empty. -/
theorem kazi_commit_appends_single_commit (message timestamp : String) (st : KaziState)
    (n : String) (b : Branch)
    (h_init : st.initialized = true) (h_staged : st.staging ≠ [])
    (h_lookup : lookupBranch n st.branches = some b) (h_active : b.active = true)
    (h_one : countActive st.branches = 1) :
    kazi_commit message timestamp st = .ok
      { st with staging := [],
                commits := st.commits ++ [⟨st.commits.length + 1, message, st.staging, timestamp⟩],
                branches := appendToBranchCommits n (st.commits.length + 1) st.branches } ∧
    lookupBranch n (appendToBranchCommits n (st.commits.length + 1) st.branches) =
      some (⟨b.commits ++ [st.commits.length + 1], b.active⟩ : Branch) ∧
    (st.commits ++ [(⟨st.commits.length + 1, message, st.staging, timestamp⟩ : Commit)]).length =
      st.commits.length + 1 := by
  have hf := findFirstActive_of_unique h_one h_lookup h_active
  refine ⟨?_, ?_, by simp⟩
  · simp [kazi_commit, h_init, h_staged, hf]
  · rw [lookupBranch_appendToBranchCommits_self, h_lookup]
    rfl

/-- Witness for C1: committing on a fresh repository with one staged file. -/
theorem kazi_commit_appends_single_commit_witness :
    kazi_commit "first" "2024-01-01T00:00:00"
      { initialized := true, staging := ["x.txt"], commits := [],
        branches := [("main", ⟨[], true⟩)] } = .ok
      { initialized := true, staging := [],
        commits := [⟨1, "first", ["x.txt"], "2024-01-01T00:00:00"⟩],
        branches := appendToBranchCommits "main" 1 [("main", ⟨[], true⟩)] } ∧
    lookupBranch "main" (appendToBranchCommits "main" 1 [("main", ⟨[], true⟩)]) =
      some (⟨[] ++ [1], true⟩ : Branch) ∧
    (([] : List Commit) ++ [(⟨1, "first", ["x.txt"], "2024-01-01T00:00:00"⟩ : Commit)]).length = 1 :=
  kazi_commit_appends_single_commit "first" "2024-01-01T00:00:00"
    { initialized := true, staging := ["x.txt"], commits := [],
      branches := [("main", ⟨[], true⟩)] }
    "main" ⟨[], true⟩
    rfl (by decide) (by decide) rfl (by decide)

theorem countActive_deactivateAll (l : List (String × Branch)) :
    countActive (deactivateAll l) = 0 := by
  induction l with
  | nil => rfl
  | cons p rest ih => simpa [deactivateAll, countActive_cons] using ih

theorem deactivateAll_cons (p : String × Branch) (l : List (String × Branch)) :
    deactivateAll (p :: l) = (p.1, { p.2 with active := false }) :: deactivateAll l := rfl

theorem countActive_activateBranch {l : List (String × Branch)} {name : String}
    (h : name ∈ l.map Prod.fst) :
    countActive (activateBranch name (deactivateAll l)) = 1 := by
  induction l with
  | nil => simp at h
  | cons p rest ih =>
    obtain ⟨m, c⟩ := p
    by_cases hm : m = name
    · subst hm
      rw [deactivateAll_cons]
      simp only [activateBranch, if_true, eq_self_iff_true]
      rw [countActive_cons, countActive_deactivateAll]
      simp
    · rw [List.map_cons] at h
      rcases List.mem_cons.mp h with h0 | h0
      · exact absurd h0.symm hm
      · simpa [deactivateAll_cons, activateBranch, hm, countActive_cons] using ih h0

theorem keys_deactivateAll (l : List (String × Branch)) :
    (deactivateAll l).map Prod.fst = l.map Prod.fst := by
  simp [deactivateAll]

theorem keys_activateBranch (name : String) (l : List (String × Branch)) :
    (activateBranch name l).map Prod.fst = l.map Prod.fst := by
  induction l with
  | nil => rfl
  | cons p rest ih =>
    obtain ⟨m, c⟩ := p
    by_cases hm : m = name <;> simp [activateBranch, hm, ih]

theorem keys_updateBranchCommits (name : String) (cs : List Nat)
    (l : List (String × Branch)) :
    (updateBranchCommits name cs l).map Prod.fst = l.map Prod.fst := by
  induction l with
  | nil => rfl
  | cons p rest ih =>
    obtain ⟨m, c⟩ := p
    by_cases hm : m = name <;> simp [updateBranchCommits, hm, ih]

theorem lookupBranch_isSome_iff {name : String} {l : List (String × Branch)} :
    (lookupBranch name l).isSome = true ↔ name ∈ l.map Prod.fst := by
  induction l with
  | nil => simp [lookupBranch]
  | cons p rest ih =>
    obtain ⟨m, c⟩ := p
    by_cases hm : m = name
    · simp [lookupBranch, hm]
    · simp only [lookupBranch, if_neg hm, List.map_cons, List.mem_cons, ih]
      constructor
      · exact Or.inr
      · rintro (h0 | h0)
        · exact absurd h0.symm hm
        · exact h0

theorem kazi_checkout_ok {name : String} {st : KaziState} (h_init : st.initialized = true)
    (h : name ∈ st.branches.map Prod.fst) :
    kazi_checkout name st =
      .ok { st with branches := activateBranch name (deactivateAll st.branches) } := by
  obtain ⟨b, hb⟩ := Option.isSome_iff_exists.mp (lookupBranch_isSome_iff.mpr h)
  simp [kazi_checkout, h_init, hb]

theorem applyCheckouts_spec (names : List String) :
    ∀ st : KaziState, st.initialized = true → countActive st.branches = 1 →
      (∀ m ∈ names, m ∈ st.branches.map Prod.fst) →
      (applyCheckouts names st).initialized = true ∧
      (applyCheckouts names st).branches.map Prod.fst = st.branches.map Prod.fst ∧
      countActive (applyCheckouts names st).branches = 1 ∧
      (applyCheckouts names st).staging = st.staging ∧
      (applyCheckouts names st).commits = st.commits := by
  induction names with
  | nil => intro st h1 h2 _; exact ⟨h1, rfl, h2, rfl, rfl⟩
  | cons n rest ih =>
    intro st h1 h2 hex
    have hn := hex n (by simp)
    have happ : applyCheckouts (n :: rest) st = applyCheckouts rest
        { st with branches := activateBranch n (deactivateAll st.branches) } := by
      simp [applyCheckouts, kazi_checkout_ok h1 hn]
    have hkeys : (activateBranch n (deactivateAll st.branches)).map Prod.fst =
        st.branches.map Prod.fst := by
      rw [keys_activateBranch, keys_deactivateAll]
    obtain ⟨k1, k2, k3, k4, k5⟩ := ih
      { st with branches := activateBranch n (deactivateAll st.branches) }
      h1 (countActive_activateBranch hn) (fun m hm => by rw [hkeys]; exact hex m (by simp [hm]))
    rw [happ]
    exact ⟨k1, by rw [k2]; exact hkeys, k3, k4, k5⟩

theorem activeNames_updateBranchCommits (name : String) (cs : List Nat)
    (l : List (String × Branch)) :
    activeNames (updateBranchCommits name cs l) = activeNames l := by
  induction l with
  | nil => rfl
  | cons p rest ih =>
    obtain ⟨m, c⟩ := p
    by_cases hm : m = name <;>
      cases hc : c.active <;>
        simp [updateBranchCommits, activeNames, List.filter_cons, hm, hc] <;>
          simpa [activeNames] using ih

theorem activeNames_appendToBranchCommits (name : String) (cid : Nat)
    (l : List (String × Branch)) :
    activeNames (appendToBranchCommits name cid l) = activeNames l := by
  induction l with
  | nil => rfl
  | cons p rest ih =>
    obtain ⟨m, c⟩ := p
    by_cases hm : m = name <;>
      cases hc : c.active <;>
        simp [appendToBranchCommits, activeNames, List.filter_cons, hm, hc] <;>
          simpa [activeNames] using ih

/-- C5: `checkout` of an existing branch first deactivates every branch
and then activates the requested one, leaving the staging set and commit
log untouched, and leaves exactly one branch active; any sequence of such
checkouts on a state with exactly one active branch keeps exactly one
branch active; and no other operation changes which branches are active —
`add` leaves the branch table alone, `commit`, `create-branch` and
`merge` preserve the set of active branch names (`diff` writes nothing by
type, and `init` on an initialized repository is a no-op). -/
theorem kazi_checkout_single_active (st : KaziState) (name : String)
    (h_init : st.initialized = true) (h_mem : name ∈ st.branches.map Prod.fst) :
    (kazi_checkout name st =
        .ok { st with branches := activateBranch name (deactivateAll st.branches) } ∧
      countActive (activateBranch name (deactivateAll st.branches)) = 1) ∧
    (∀ names (st₀ : KaziState), st₀.initialized = true → countActive st₀.branches = 1 →
      (∀ m ∈ names, m ∈ st₀.branches.map Prod.fst) →
      countActive (applyCheckouts names st₀).branches = 1 ∧
      (applyCheckouts names st₀).staging = st₀.staging ∧
      (applyCheckouts names st₀).commits = st₀.commits) ∧
    (∀ fs p (st₀ st₁ : KaziState) (r : Option Nat),
      kazi_add fs p st₀ = .ok (st₁, r) → st₁.branches = st₀.branches) ∧
    (∀ msg ts (st₀ st₁ : KaziState), kazi_commit msg ts st₀ = .ok st₁ →
      activeNames st₁.branches = activeNames st₀.branches) ∧
    (∀ nb (st₀ st₁ : KaziState), kazi_create_branch nb st₀ = .ok st₁ →
      activeNames st₁.branches = activeNames st₀.branches) ∧
    (∀ res s t (st₀ st₁ : KaziState), kazi_merge res s t st₀ = .ok st₁ →
      activeNames st₁.branches = activeNames st₀.branches) ∧
    (∀ st₀ : KaziState, st₀.initialized = true → kazi_init st₀ = st₀) := by
  refine ⟨⟨kazi_checkout_ok h_init h_mem, countActive_activateBranch h_mem⟩, ?_, ?_, ?_, ?_, ?_, ?_⟩
  · intro names st₀ k1 k2 k3
    obtain ⟨-, -, q3, q4, q5⟩ := applyCheckouts_spec names st₀ k1 k2 k3
    exact ⟨q3, q4, q5⟩
  · intro fs p st₀ st₁ r h
    by_cases h1 : st₀.initialized = false
    · simp [kazi_add, h1] at h
    · by_cases h2 : p ∈ fs
      · by_cases h3 : p ∈ st₀.staging
        · simp [kazi_add, h1, h2, h3] at h
          rw [← h.1]
        · simp [kazi_add, h1, h2, h3] at h
          rw [← h.1]
      · simp [kazi_add, h1, h2] at h
  · intro msg ts st₀ st₁ h
    by_cases h1 : st₀.initialized = false
    · simp [kazi_commit, h1] at h
    · by_cases h2 : st₀.staging = []
      · simp [kazi_commit, h1, h2] at h
      · rcases hf : findFirstActive st₀.branches with _ | n
        · simp [kazi_commit, h1, h2, hf] at h
        · simp [kazi_commit, h1, h2, hf] at h
          rw [← h]
          exact activeNames_appendToBranchCommits n (st₀.commits.length + 1) st₀.branches
  · intro nb st₀ st₁ h
    by_cases h1 : st₀.initialized = false
    · simp [kazi_create_branch, h1] at h
    · rcases hl : lookupBranch nb st₀.branches with _ | b
      · simp [kazi_create_branch, h1, hl] at h
        rw [← h]
        simp [activeNames, List.filter_append]
      · simp [kazi_create_branch, h1, hl] at h
  · intro res s t st₀ st₁ h
    by_cases h1 : st₀.initialized = false
    · simp [kazi_merge, h1] at h
    · rcases hs : lookupBranch s st₀.branches with _ | bS
      · simp [kazi_merge, h1, hs] at h
      · rcases ht : lookupBranch t st₀.branches with _ | bT
        · simp [kazi_merge, h1, hs, ht] at h
        · by_cases hst : s = t
          · simp [kazi_merge, h1, hs, ht, hst] at h
            rw [← h]
            exact activeNames_updateBranchCommits _ _ _
          · simp [kazi_merge, h1, hs, ht, hst] at h
            rw [← h]
            rw [activeNames_updateBranchCommits, activeNames_updateBranchCommits]
  · intro st₀ h0
    simp [kazi_init, h0]

/-- Witness for C5 on a two-branch repository, checking out `feature`. -/
theorem kazi_checkout_single_active_witness :
    (kazi_checkout "feature"
        { initialized := true, staging := [], commits := [],
          branches := [("main", ⟨[], true⟩), ("feature", ⟨[], false⟩)] } =
        .ok { initialized := true, staging := [], commits := [],
              branches := activateBranch "feature"
                (deactivateAll [("main", ⟨[], true⟩), ("feature", ⟨[], false⟩)]) } ∧
      countActive (activateBranch "feature"
        (deactivateAll [("main", ⟨[], true⟩), ("feature", ⟨[], false⟩)])) = 1) ∧
    (∀ names (st₀ : KaziState), st₀.initialized = true → countActive st₀.branches = 1 →
      (∀ m ∈ names, m ∈ st₀.branches.map Prod.fst) →
      countActive (applyCheckouts names st₀).branches = 1 ∧
      (applyCheckouts names st₀).staging = st₀.staging ∧
      (applyCheckouts names st₀).commits = st₀.commits) ∧
    (∀ fs p (st₀ st₁ : KaziState) (r : Option Nat),
      kazi_add fs p st₀ = .ok (st₁, r) → st₁.branches = st₀.branches) ∧
    (∀ msg ts (st₀ st₁ : KaziState), kazi_commit msg ts st₀ = .ok st₁ →
      activeNames st₁.branches = activeNames st₀.branches) ∧
    (∀ nb (st₀ st₁ : KaziState), kazi_create_branch nb st₀ = .ok st₁ →
      activeNames st₁.branches = activeNames st₀.branches) ∧
    (∀ res s t (st₀ st₁ : KaziState), kazi_merge res s t st₀ = .ok st₁ →
      activeNames st₁.branches = activeNames st₀.branches) ∧
    (∀ st₀ : KaziState, st₀.initialized = true → kazi_init st₀ = st₀) :=
  kazi_checkout_single_active
    { initialized := true, staging := [], commits := [],
      branches := [("main", ⟨[], true⟩), ("feature", ⟨[], false⟩)] }
    "feature" rfl (by decide)

theorem extendDedup_spec (source : List Nat) :
    ∀ target : List Nat, ∃ r, extendDedup target source = target ++ r ∧
      r.Sublist source ∧ r.Nodup ∧ ∀ c, c ∈ r ↔ (c ∈ source ∧ c ∉ target) := by
  induction source with
  | nil =>
    intro t
    exact ⟨[], by simp [extendDedup], by simp, by simp, by simp⟩
  | cons c rest ih =>
    intro t
    by_cases hc : c ∈ t
    · have hstep : extendDedup t (c :: rest) = extendDedup t rest := by
        simp [extendDedup, hc]
      obtain ⟨r, h1, h2, h3, h4⟩ := ih t
      refine ⟨r, hstep ▸ h1, h2.trans (List.sublist_cons_self c rest), h3, ?_⟩
      intro x
      rw [h4 x]
      constructor
      · rintro ⟨hx, hxt⟩
        exact ⟨List.mem_cons_of_mem _ hx, hxt⟩
      · rintro ⟨hx, hxt⟩
        rcases List.mem_cons.mp hx with rfl | hx'
        · exact absurd hc hxt
        · exact ⟨hx', hxt⟩
    · have hstep : extendDedup t (c :: rest) = extendDedup (t ++ [c]) rest := by
        simp [extendDedup, hc]
      obtain ⟨r, h1, h2, h3, h4⟩ := ih (t ++ [c])
      refine ⟨c :: r, ?_, h2.cons₂ c, ?_, ?_⟩
      · rw [hstep, h1, List.append_assoc]
        rfl
      · refine List.nodup_cons.mpr ⟨fun hcr => ?_, h3⟩
        exact ((h4 c).mp hcr).2 (by simp)
      · intro x
        simp only [List.mem_cons, h4 x, List.mem_append, List.mem_singleton]
        constructor
        · rintro (rfl | ⟨hx, hxt⟩)
          · exact ⟨Or.inl rfl, hc⟩
          · exact ⟨Or.inr hx, fun ht => hxt (Or.inl ht)⟩
        · rintro ⟨rfl | hx, hxt⟩
          · exact Or.inl rfl
          · by_cases hxc : x = c
            · exact Or.inl hxc
            · refine Or.inr ⟨hx, ?_⟩
              rintro (ht | hxc2)
              · exact hxt ht
              · rcases hxc2 with h0 | h0
                · exact hxc h0
                · simp at h0

theorem mem_extendDedup_of_mem_source {c : Nat} {target source : List Nat}
    (h : c ∈ source) : c ∈ extendDedup target source := by
  obtain ⟨r, h1, -, -, h4⟩ := extendDedup_spec source target
  rw [h1, List.mem_append]
  by_cases ht : c ∈ target
  · exact Or.inl ht
  · exact Or.inr ((h4 c).mpr ⟨h, ht⟩)

theorem extendDedup_eq_self {target source : List Nat}
    (h : ∀ c ∈ source, c ∈ target) : extendDedup target source = target := by
  obtain ⟨r, h1, -, -, h4⟩ := extendDedup_spec source target
  have hr : r = [] := by
    rw [List.eq_nil_iff_forall_not_mem]
    intro c hc
    exact ((h4 c).mp hc).2 (h c ((h4 c).mp hc).1)
  rw [h1, hr, List.append_nil]

theorem mem_foldl_erase {x : Nat} :
    ∀ (C L : List Nat), x ∈ C.foldl (fun l c => l.erase c) L → x ∈ L := by
  intro C
  induction C with
  | nil => intro L h; simpa using h
  | cons c rest ih =>
    intro L h
    exact List.mem_of_mem_erase (ih (L.erase c) h)

theorem resolveSource_subset (res : String) (S T : List Nat) :
    ∀ c ∈ resolveSource res S T, c ∈ S := by
  intro c hc
  simp only [resolveSource] at hc
  by_cases h1 : S.filter (fun x => decide (x ∈ T)) = []
  · rw [if_pos h1] at hc
    exact hc
  · rw [if_neg h1] at hc
    by_cases h2 : res = "s"
    · rw [if_pos h2] at hc
      exact mem_foldl_erase _ _ hc
    · rw [if_neg h2] at hc
      exact hc

theorem foldl_erase_cons_of_ne {a : Nat} :
    ∀ (C L : List Nat), (∀ c ∈ C, c ≠ a) →
      C.foldl (fun l c => l.erase c) (a :: L) = a :: C.foldl (fun l c => l.erase c) L := by
  intro C
  induction C with
  | nil => intro L _; rfl
  | cons c rest ih =>
    intro L h
    have hca : c ≠ a := h c (by simp)
    simp only [List.foldl_cons]
    rw [List.erase_cons_tail (by simpa using fun h0 => hca h0.symm)]
    exact ih (L.erase c) (fun d hd => h d (List.mem_cons_of_mem _ hd))

theorem lookupBranch_updateBranchCommits_self (name : String) (cs : List Nat)
    (l : List (String × Branch)) :
    lookupBranch name (updateBranchCommits name cs l) =
      (lookupBranch name l).map (fun b => { b with commits := cs }) := by
  induction l with
  | nil => simp [lookupBranch, updateBranchCommits]
  | cons p rest ih =>
    obtain ⟨m, c⟩ := p
    by_cases hm : m = name
    · simp [updateBranchCommits, lookupBranch, hm]
    · simp [updateBranchCommits, lookupBranch, hm, ih]

theorem lookupBranch_updateBranchCommits_ne {m name : String} (h : m ≠ name)
    (cs : List Nat) (l : List (String × Branch)) :
    lookupBranch m (updateBranchCommits name cs l) = lookupBranch m l := by
  induction l with
  | nil => simp [lookupBranch, updateBranchCommits]
  | cons p rest ih =>
    obtain ⟨n, b⟩ := p
    by_cases hn : n = name
    · simp [updateBranchCommits, lookupBranch, hn, Ne.symm h]
    · simp [updateBranchCommits, lookupBranch, hn, ih]

theorem foldl_erase_filter (T : List Nat) :
    ∀ S : List Nat,
      (S.filter (fun c => decide (c ∈ T))).foldl (fun l c => l.erase c) S =
        S.filter (fun c => decide (c ∉ T)) := by
  intro S
  induction S with
  | nil => rfl
  | cons a S' ih =>
    by_cases ha : a ∈ T
    · rw [List.filter_cons_of_pos (by simpa using ha)]
      rw [List.foldl_cons, List.erase_cons_head]
      rw [ih]
      rw [List.filter_cons_of_neg (by simpa using ha)]
    · rw [List.filter_cons_of_neg (by simpa using ha)]
      rw [foldl_erase_cons_of_ne _ _ (fun c hc => ?_), ih,
        List.filter_cons_of_pos (by simpa using ha)]
      intro hca
      subst hca
      exact ha (by simpa using List.of_mem_filter hc)

theorem length_filter_lt_of_mem {T S : List Nat} {c : Nat} (hc : c ∈ S) (hcT : c ∈ T) :
    (S.filter (fun x => decide (x ∉ T))).length < S.length := by
  induction S with
  | nil => simp at hc
  | cons a S' ih =>
    by_cases haT : a ∈ T
    · rw [List.filter_cons_of_neg (by simpa using haT)]
      have := List.length_filter_le (fun x => decide (x ∉ T)) S'
      simp only [List.length_cons]
      omega
    · rw [List.filter_cons_of_pos (by simpa using haT)]
      rcases List.mem_cons.mp hc with rfl | hc'
      · exact absurd hcT haT
      · simpa using ih hc'

theorem kazi_merge_ok_distinct (resolution source_branch target_branch : String)
    (st : KaziState) (bS bT : Branch)
    (h_init : st.initialized = true) (h_ne : source_branch ≠ target_branch)
    (hS : lookupBranch source_branch st.branches = some bS)
    (hT : lookupBranch target_branch st.branches = some bT) :
    kazi_merge resolution source_branch target_branch st = .ok
      { st with branches :=
          (updateBranchCommits target_branch
            (extendDedup bT.commits (resolveSource resolution bS.commits bT.commits))
            (updateBranchCommits source_branch
              (resolveSource resolution bS.commits bT.commits) st.branches)) } := by
  simp [kazi_merge, h_init, hS, hT, h_ne]

theorem kazi_merge_ok_self (resolution name : String) (st : KaziState) (b : Branch)
    (h_init : st.initialized = true) (hb : lookupBranch name st.branches = some b) :
    kazi_merge resolution name name st = .ok
      { st with branches :=
          (updateBranchCommits name (resolveSource resolution b.commits b.commits)
            st.branches) } := by
  simp [kazi_merge, h_init, hb]

/-- C3 counterexample: `merge(source, target)` with source = target = `a`
and keep-source resolution.  In Python `source_commits` and
`target_commits` are the same list object, so the keep-source removals
empty the shared list and the final extend appends nothing: branch `a`
ends with commits `[]`, whereas the claim predicts the previous value
`[1]` extended with the post-resolution source IDs not already in the
target — that is, `[1]`. -/
theorem kazi_merge_self_keep_source_cex :
    kazi_merge "s" "a" "a"
      { initialized := true, staging := [], commits := [],
        branches := [("a", ⟨[1], true⟩)] } =
      .ok { initialized := true, staging := [], commits := [],
            branches := [("a", ⟨[], true⟩)] } ∧
    [1] ++ (resolveSource "s" [1] [1]).filter (fun c => decide (c ∉ ([1] : List Nat))) =
      [1] ∧
    ([] : List Nat) ≠ [1] := by
  exact ⟨rfl, by decide, by decide⟩

/-- C3 amended: for every pair of DISTINCT existing branches and every
resolution outcome, after merge the target branch's commits equal their
previous value extended with exactly the IDs of the post-resolution
source list that were not already in the target list: the appended block
is a duplicate-free subsequence of the post-resolution source list (so
source order is preserved and no ID is appended twice) whose members are
precisely the post-resolution source IDs missing from the target.  When
source = target, the two Python aliases are one list and the extend
appends nothing (see the counterexample). -/
theorem kazi_merge_extends_target (resolution source_branch target_branch : String)
    (st : KaziState) (bS bT : Branch)
    (h_init : st.initialized = true) (h_ne : source_branch ≠ target_branch)
    (hS : lookupBranch source_branch st.branches = some bS)
    (hT : lookupBranch target_branch st.branches = some bT) :
    ∃ st', kazi_merge resolution source_branch target_branch st = .ok st' ∧
      lookupBranch target_branch st'.branches =
        some (⟨extendDedup bT.commits (resolveSource resolution bS.commits bT.commits),
               bT.active⟩ : Branch) ∧
      ∃ appended,
        extendDedup bT.commits (resolveSource resolution bS.commits bT.commits) =
          bT.commits ++ appended ∧
        appended.Sublist (resolveSource resolution bS.commits bT.commits) ∧
        appended.Nodup ∧
        (∀ c, c ∈ appended ↔
          (c ∈ resolveSource resolution bS.commits bT.commits ∧ c ∉ bT.commits)) := by
  refine ⟨_, kazi_merge_ok_distinct resolution source_branch target_branch st bS bT
    h_init h_ne hS hT, ?_, ?_⟩
  · rw [lookupBranch_updateBranchCommits_self,
      lookupBranch_updateBranchCommits_ne (fun h0 => h_ne h0.symm), hT]
    rfl
  · obtain ⟨r, h1, h2, h3, h4⟩ :=
      extendDedup_spec (resolveSource resolution bS.commits bT.commits) bT.commits
    exact ⟨r, h1, h2, h3, h4⟩

/-- Witness for C3's amended theorem: merging `feature` = `[1, 2]` into
`main` = `[2]` under keep-target appends exactly `[1]`. -/
theorem kazi_merge_extends_target_witness :
    ∃ st', kazi_merge "t" "feature" "main"
        { initialized := true, staging := [], commits := [],
          branches := [("feature", ⟨[1, 2], false⟩), ("main", ⟨[2], true⟩)] } = .ok st' ∧
      lookupBranch "main" st'.branches =
        some (⟨extendDedup [2] (resolveSource "t" [1, 2] [2]), true⟩ : Branch) ∧
      ∃ appended,
        extendDedup [2] (resolveSource "t" [1, 2] [2]) = [2] ++ appended ∧
        appended.Sublist (resolveSource "t" [1, 2] [2]) ∧
        appended.Nodup ∧
        (∀ c, c ∈ appended ↔
          (c ∈ resolveSource "t" [1, 2] [2] ∧ c ∉ ([2] : List Nat))) :=
  kazi_merge_extends_target "t" "feature" "main"
    { initialized := true, staging := [], commits := [],
      branches := [("feature", ⟨[1, 2], false⟩), ("main", ⟨[2], true⟩)] }
    ⟨[1, 2], false⟩ ⟨[2], true⟩ rfl (by decide) (by decide) (by decide)

/-- C4: on distinct existing branches with a non-empty conflict list,
merge under keep-source persistently replaces the source branch's stored
commits by the old list with every conflicting ID removed — exactly the
IDs absent from the target remain — strictly shrinking the source
branch's history. -/
theorem kazi_merge_keep_source_shrinks_source (source_branch target_branch : String)
    (st : KaziState) (bS bT : Branch)
    (h_init : st.initialized = true) (h_ne : source_branch ≠ target_branch)
    (hS : lookupBranch source_branch st.branches = some bS)
    (hT : lookupBranch target_branch st.branches = some bT)
    (h_conf : bS.commits.filter (fun c => decide (c ∈ bT.commits)) ≠ []) :
    ∃ st', kazi_merge "s" source_branch target_branch st = .ok st' ∧
      lookupBranch source_branch st'.branches =
        some (⟨bS.commits.filter (fun c => decide (c ∉ bT.commits)), bS.active⟩ : Branch) ∧
      (bS.commits.filter (fun c => decide (c ∉ bT.commits))).length <
        bS.commits.length := by
  have hres : resolveSource "s" bS.commits bT.commits =
      bS.commits.filter (fun c => decide (c ∉ bT.commits)) := by
    simp only [resolveSource]
    rw [if_neg h_conf, if_pos trivial]
    exact foldl_erase_filter bT.commits bS.commits
  refine ⟨_, kazi_merge_ok_distinct "s" source_branch target_branch st bS bT
    h_init h_ne hS hT, ?_, ?_⟩
  · rw [lookupBranch_updateBranchCommits_ne h_ne,
      lookupBranch_updateBranchCommits_self, hS, hres]
    rfl
  · obtain ⟨c, hc⟩ := List.exists_mem_of_ne_nil _ h_conf
    rw [List.mem_filter] at hc
    exact length_filter_lt_of_mem hc.1 (by simpa using hc.2)

/-- Witness for C4: keep-source merge of `feature` = `[1, 2]` into
`main` = `[2]` leaves `feature` with commits `[1]`. -/
theorem kazi_merge_keep_source_shrinks_source_witness :
    ∃ st', kazi_merge "s" "feature" "main"
        { initialized := true, staging := [], commits := [],
          branches := [("feature", ⟨[1, 2], false⟩), ("main", ⟨[2], true⟩)] } = .ok st' ∧
      lookupBranch "feature" st'.branches =
        some (⟨([1, 2] : List Nat).filter (fun c => decide (c ∉ ([2] : List Nat))),
               false⟩ : Branch) ∧
      (([1, 2] : List Nat).filter (fun c => decide (c ∉ ([2] : List Nat)))).length <
        ([1, 2] : List Nat).length :=
  kazi_merge_keep_source_shrinks_source "feature" "main"
    { initialized := true, staging := [], commits := [],
      branches := [("feature", ⟨[1, 2], false⟩), ("main", ⟨[2], true⟩)] }
    ⟨[1, 2], false⟩ ⟨[2], true⟩ rfl (by decide) (by decide) (by decide) (by decide)

/-- C9: merging the same source into the same target twice in a row (any
two resolution answers, no operation in between) adds no new commit IDs
to the target the second time: every ID on the target after the second
merge was already on it after the first. -/
theorem kazi_merge_idempotent_on_target
    (res1 res2 source_branch target_branch : String) (st st1 : KaziState)
    (h1 : kazi_merge res1 source_branch target_branch st = .ok st1) :
    ∃ st2 bT1 bT2,
      kazi_merge res2 source_branch target_branch st1 = .ok st2 ∧
      lookupBranch target_branch st1.branches = some bT1 ∧
      lookupBranch target_branch st2.branches = some bT2 ∧
      ∀ c ∈ bT2.commits, c ∈ bT1.commits := by
  by_cases hI : st.initialized = false
  · simp [kazi_merge, hI] at h1
  · rcases hs : lookupBranch source_branch st.branches with _ | bS
    · simp [kazi_merge, hI, hs] at h1
    · rcases ht : lookupBranch target_branch st.branches with _ | bT
      · simp [kazi_merge, hI, hs, ht] at h1
      · have hI' : st.initialized = true := by
          cases h0 : st.initialized
          · exact absurd h0 hI
          · rfl
        by_cases heq : source_branch = target_branch
        · subst heq
          have hb : bS = bT := by
            rw [hs] at ht
            exact Option.some.inj ht
          subst hb
          rw [kazi_merge_ok_self res1 source_branch st bS hI' hs] at h1
          have hst1 := (Except.ok.inj h1).symm
          subst hst1
          have hl1 : lookupBranch source_branch
              (updateBranchCommits source_branch
                (resolveSource res1 bS.commits bS.commits) st.branches) =
              some (⟨resolveSource res1 bS.commits bS.commits, bS.active⟩ : Branch) := by
            rw [lookupBranch_updateBranchCommits_self, hs]
            rfl
          have hok2 := kazi_merge_ok_self res2 source_branch
            { st with branches :=
                (updateBranchCommits source_branch
                  (resolveSource res1 bS.commits bS.commits) st.branches) }
            ⟨resolveSource res1 bS.commits bS.commits, bS.active⟩ hI' hl1
          have hl2 : lookupBranch source_branch
              (updateBranchCommits source_branch
                (resolveSource res2 (resolveSource res1 bS.commits bS.commits)
                  (resolveSource res1 bS.commits bS.commits))
                (updateBranchCommits source_branch
                  (resolveSource res1 bS.commits bS.commits) st.branches)) =
              some (⟨resolveSource res2 (resolveSource res1 bS.commits bS.commits)
                  (resolveSource res1 bS.commits bS.commits), bS.active⟩ : Branch) := by
            rw [lookupBranch_updateBranchCommits_self, hl1]
            rfl
          refine ⟨_, _, _, hok2, hl1, hl2, ?_⟩
          intro c hc
          exact resolveSource_subset res2 _ _ c hc
        · rw [kazi_merge_ok_distinct res1 source_branch target_branch st bS bT
            hI' heq hs ht] at h1
          have hst1 := (Except.ok.inj h1).symm
          subst hst1
          have hlsrc : lookupBranch source_branch
              (updateBranchCommits target_branch
                (extendDedup bT.commits (resolveSource res1 bS.commits bT.commits))
                (updateBranchCommits source_branch
                  (resolveSource res1 bS.commits bT.commits) st.branches)) =
              some (⟨resolveSource res1 bS.commits bT.commits, bS.active⟩ : Branch) := by
            rw [lookupBranch_updateBranchCommits_ne heq,
              lookupBranch_updateBranchCommits_self, hs]
            rfl
          have hltgt : lookupBranch target_branch
              (updateBranchCommits target_branch
                (extendDedup bT.commits (resolveSource res1 bS.commits bT.commits))
                (updateBranchCommits source_branch
                  (resolveSource res1 bS.commits bT.commits) st.branches)) =
              some (⟨extendDedup bT.commits (resolveSource res1 bS.commits bT.commits),
                     bT.active⟩ : Branch) := by
            rw [lookupBranch_updateBranchCommits_self,
              lookupBranch_updateBranchCommits_ne (fun h0 => heq h0.symm), ht]
            rfl
          have hok2 := kazi_merge_ok_distinct res2 source_branch target_branch
            { st with branches :=
                (updateBranchCommits target_branch
                  (extendDedup bT.commits (resolveSource res1 bS.commits bT.commits))
                  (updateBranchCommits source_branch
                    (resolveSource res1 bS.commits bT.commits) st.branches)) }
            ⟨resolveSource res1 bS.commits bT.commits, bS.active⟩
            ⟨extendDedup bT.commits (resolveSource res1 bS.commits bT.commits), bT.active⟩
            hI' heq hlsrc hltgt
          have hltgt2 : lookupBranch target_branch
              (updateBranchCommits target_branch
                (extendDedup
                  (extendDedup bT.commits (resolveSource res1 bS.commits bT.commits))
                  (resolveSource res2 (resolveSource res1 bS.commits bT.commits)
                    (extendDedup bT.commits (resolveSource res1 bS.commits bT.commits))))
                (updateBranchCommits source_branch
                  (resolveSource res2 (resolveSource res1 bS.commits bT.commits)
                    (extendDedup bT.commits (resolveSource res1 bS.commits bT.commits)))
                  (updateBranchCommits target_branch
                    (extendDedup bT.commits (resolveSource res1 bS.commits bT.commits))
                    (updateBranchCommits source_branch
                      (resolveSource res1 bS.commits bT.commits) st.branches)))) =
              some (⟨extendDedup
                  (extendDedup bT.commits (resolveSource res1 bS.commits bT.commits))
                  (resolveSource res2 (resolveSource res1 bS.commits bT.commits)
                    (extendDedup bT.commits (resolveSource res1 bS.commits bT.commits))),
                bT.active⟩ : Branch) := by
            rw [lookupBranch_updateBranchCommits_self,
              lookupBranch_updateBranchCommits_ne (fun h0 => heq h0.symm), hltgt]
            rfl
          have hT2 : extendDedup
              (extendDedup bT.commits (resolveSource res1 bS.commits bT.commits))
              (resolveSource res2 (resolveSource res1 bS.commits bT.commits)
                (extendDedup bT.commits (resolveSource res1 bS.commits bT.commits))) =
              extendDedup bT.commits (resolveSource res1 bS.commits bT.commits) := by
            apply extendDedup_eq_self
            intro x hx
            exact mem_extendDedup_of_mem_source (resolveSource_subset res2 _ _ x hx)
          refine ⟨_, _, _, hok2, hltgt, hltgt2, ?_⟩
          intro c hc
          exact hT2 ▸ hc

/-- Witness for C9: after merging `feature` = `[1, 2]` into `main` = `[2]`
(keep-target), a second identical merge leaves `main` with no new IDs. -/
theorem kazi_merge_idempotent_on_target_witness :
    ∃ st2 bT1 bT2,
      kazi_merge "t" "feature" "main"
        { initialized := true, staging := [], commits := [],
          branches := [("feature", ⟨[1, 2], false⟩), ("main", ⟨[2, 1], true⟩)] } =
        .ok st2 ∧
      lookupBranch "main"
        (KaziState.branches
          { initialized := true, staging := [], commits := [],
            branches := [("feature", ⟨[1, 2], false⟩), ("main", ⟨[2, 1], true⟩)] }) =
        some bT1 ∧
      lookupBranch "main" st2.branches = some bT2 ∧
      ∀ c ∈ bT2.commits, c ∈ bT1.commits :=
  kazi_merge_idempotent_on_target "t" "t" "feature" "main"
    { initialized := true, staging := [], commits := [],
      branches := [("feature", ⟨[1, 2], false⟩), ("main", ⟨[2], true⟩)] }
    { initialized := true, staging := [], commits := [],
      branches := [("feature", ⟨[1, 2], false⟩), ("main", ⟨[2, 1], true⟩)] }
    rfl

/-- C10 counterexample: `kazi_add` returns `None` on every path, never
the updated staging count.  Staging `x.txt` into the fresh repository
grows the staging set to one element, but the returned value is `none`
(Python `None`), not the count `1`. -/
theorem kazi_add_returns_none_cex :
    kazi_add ["x.txt"] "x.txt" initialState =
      .ok ({ initialState with staging := ["x.txt"] }, none) ∧
    (none : Option Nat) ≠ some (["x.txt"] : List String).length := by
  exact ⟨rfl, by simp⟩

/-- C10 amended: `add` of an existing file on an initialized repository
succeeds but returns no value (Python `None`); the updated staging count
is observable only as the length of the staging set after the call, which
grows by one for a newly staged path and is unchanged for an
already-staged one. -/
theorem kazi_add_no_return_value (fs : List String) (file_path : String) (st : KaziState)
    (h_init : st.initialized = true) (h_fs : file_path ∈ fs) :
    ∃ st', kazi_add fs file_path st = .ok (st', none) ∧
      st'.staging.length =
        (if file_path ∈ st.staging then st.staging.length else st.staging.length + 1) := by
  by_cases hmem : file_path ∈ st.staging
  · exact ⟨st, by simp [kazi_add, h_init, h_fs, hmem]⟩
  · refine ⟨{ st with staging := st.staging ++ [file_path] }, ?_, ?_⟩
    · simp [kazi_add, h_init, h_fs, hmem]
    · simp [hmem]

/-- Witness for C10's amended theorem at the fresh repository. -/
theorem kazi_add_no_return_value_witness :
    ∃ st', kazi_add ["x.txt"] "x.txt" initialState = .ok (st', none) ∧
      st'.staging.length =
        (if "x.txt" ∈ initialState.staging then initialState.staging.length
         else initialState.staging.length + 1) :=
  kazi_add_no_return_value ["x.txt"] "x.txt" initialState rfl (by decide)

theorem kazi_add_ok (fs : List String) (p : String) (st : KaziState)
    (h_init : st.initialized = true) (h_fs : p ∈ fs) :
    kazi_add fs p st =
      .ok ({ st with staging :=
               if p ∈ st.staging then st.staging else st.staging ++ [p] }, none) := by
  obtain ⟨i, stg, cm, br⟩ := st
  subst h_init
  by_cases hmem : p ∈ stg <;> simp [kazi_add, h_fs, hmem]

theorem applyAdds_spec (fs paths : List String) :
    ∀ st : KaziState, st.initialized = true → st.staging.Nodup →
      (∀ p ∈ paths, p ∈ fs) →
      (applyAdds fs paths st).initialized = true ∧
      (applyAdds fs paths st).staging.Nodup ∧
      (∀ p ∈ paths, p ∈ (applyAdds fs paths st).staging) ∧
      (∀ q ∈ st.staging, q ∈ (applyAdds fs paths st).staging) := by
  induction paths with
  | nil =>
    intro st h1 h2 _
    exact ⟨h1, h2, by simp, fun q hq => hq⟩
  | cons p rest ih =>
    intro st h1 h2 hex
    have hp : p ∈ fs := hex p (by simp)
    have happ : applyAdds fs (p :: rest) st = applyAdds fs rest
        { st with staging := if p ∈ st.staging then st.staging else st.staging ++ [p] } := by
      simp [applyAdds, kazi_add_ok fs p st h1 hp]
    have h2' : (if p ∈ st.staging then st.staging else st.staging ++ [p]).Nodup := by
      by_cases hmem : p ∈ st.staging
      · simpa [hmem] using h2
      · simp [hmem, List.nodup_append, h2, List.disjoint_singleton, hmem]
    obtain ⟨k1, k2, k3, k4⟩ := ih
      { st with staging := if p ∈ st.staging then st.staging else st.staging ++ [p] }
      h1 h2' (fun q hq => hex q (by simp [hq]))
    rw [happ]
    refine ⟨k1, k2, ?_, ?_⟩
    · intro q hq
      rcases List.mem_cons.mp hq with rfl | hq'
      · apply k4
        by_cases hmem : q ∈ st.staging <;> simp [hmem]
      · exact k3 q hq'
    · intro q hq
      apply k4
      by_cases hmem : p ∈ st.staging <;> simp [hmem, hq]

/-- C6: any sequence of `add` calls on existing files, duplicates
included, keeps the staging set free of duplicates — each staged path
appears exactly once — and adding an already-staged path is a successful
no-op, not an error. -/
theorem kazi_add_staging_nodup (fs paths : List String) (st : KaziState)
    (h_init : st.initialized = true) (h_nodup : st.staging.Nodup)
    (h_ex : ∀ p ∈ paths, p ∈ fs) :
    (applyAdds fs paths st).staging.Nodup ∧
    (∀ p ∈ paths, (applyAdds fs paths st).staging.count p = 1) ∧
    (∀ q, q ∈ fs → q ∈ st.staging → kazi_add fs q st = .ok (st, none)) := by
  obtain ⟨-, hnd, hmem, -⟩ := applyAdds_spec fs paths st h_init h_nodup h_ex
  refine ⟨hnd, fun p hp => List.count_eq_one_of_mem hnd (hmem p hp), fun q hqf hqs => ?_⟩
  simp [kazi_add, h_init, hqf, hqs]

/-- Witness for C6: staging `x.txt` twice and `y.txt` once leaves each
path staged exactly once. -/
theorem kazi_add_staging_nodup_witness :
    (applyAdds ["x.txt", "y.txt"] ["x.txt", "y.txt", "x.txt"] initialState).staging.Nodup ∧
    (∀ p ∈ ["x.txt", "y.txt", "x.txt"],
      (applyAdds ["x.txt", "y.txt"] ["x.txt", "y.txt", "x.txt"] initialState).staging.count p = 1) ∧
    (∀ q, q ∈ ["x.txt", "y.txt"] → q ∈ initialState.staging →
      kazi_add ["x.txt", "y.txt"] q initialState = .ok (initialState, none)) :=
  kazi_add_staging_nodup ["x.txt", "y.txt"] ["x.txt", "y.txt", "x.txt"] initialState
    rfl (by decide) (by decide)

/-- C2 counterexample: on a repository whose branch table has two active
branches and a non-empty staging set, `commit` does not fail at all — it
commits to the first active branch and mutates all three collections —
contradicting the claim that it fails with `CorruptRepository` leaving the
collections unchanged. -/
theorem kazi_commit_two_active_succeeds_cex :
    kazi_commit "m" "ts"
      { initialized := true, staging := ["f"], commits := [],
        branches := [("a", { commits := [], active := true }),
                     ("b", { commits := [], active := true })] } =
      .ok { initialized := true, staging := [],
            commits := [{ id := 1, message := "m", files := ["f"], timestamp := "ts" }],
            branches := [("a", { commits := [1], active := true }),
                         ("b", { commits := [], active := true })] } ∧
    ∀ e : KaziError,
      kazi_commit "m" "ts"
        { initialized := true, staging := ["f"], commits := [],
          branches := [("a", { commits := [], active := true }),
                       ("b", { commits := [], active := true })] } ≠ .error e := by
  refine ⟨rfl, ?_⟩
  intro e h
  rw [show kazi_commit "m" "ts"
      { initialized := true, staging := ["f"], commits := [],
        branches := [("a", { commits := [], active := true }),
                     ("b", { commits := [], active := true })] } =
      .ok { initialized := true, staging := [],
            commits := [{ id := 1, message := "m", files := ["f"], timestamp := "ts" }],
            branches := [("a", { commits := [1], active := true }),
                         ("b", { commits := [], active := true })] } from rfl] at h
  exact Except.noConfusion h

/-- C2 amended: the code has no `CorruptRepository` error.  With zero
active branches, `commit` aborts with the uncaught `StopIteration` raised
by `next(...)` — before any collection is written, so the persisted state
is unchanged — and with one or more active branches it does not fail: it
appends the new commit's id to the first branch in table order whose
`active` flag is set. -/
theorem kazi_commit_active_branch_resolution (message timestamp : String) (st : KaziState)
    (h_init : st.initialized = true) (h_staged : st.staging ≠ [])
    (h_keys : (st.branches.map Prod.fst).Nodup) :
    (findFirstActive st.branches = none →
      kazi_commit message timestamp st = .error .stopIteration) ∧
    (∀ n b, findFirstActive st.branches = some n →
      lookupBranch n st.branches = some b →
      b.active = true ∧
      kazi_commit message timestamp st = .ok
        { st with staging := [],
                  commits := st.commits ++
                    [{ id := st.commits.length + 1, message := message,
                       files := st.staging, timestamp := timestamp }],
                  branches := appendToBranchCommits n (st.commits.length + 1) st.branches }) := by
  constructor
  · intro hf
    simp [kazi_commit, h_init, h_staged, hf]
  · intro n b hf hl
    exact ⟨lookup_active_of_findFirstActive h_keys hf hl,
           by simp [kazi_commit, h_init, h_staged, hf]⟩

/-- Witness for C2's amended theorem at the two-active-branch state: the
first active branch `a` receives the commit. -/
theorem kazi_commit_active_branch_resolution_witness :
    (findFirstActive [("a", { commits := [], active := true }),
                      ("b", { commits := [], active := true : Branch })] = none →
      kazi_commit "m" "ts"
        { initialized := true, staging := ["f"], commits := [],
          branches := [("a", { commits := [], active := true }),
                       ("b", { commits := [], active := true })] } =
        .error .stopIteration) ∧
    (∀ n b, findFirstActive [("a", { commits := [], active := true }),
                             ("b", { commits := [], active := true : Branch })] = some n →
      lookupBranch n [("a", { commits := [], active := true }),
                      ("b", { commits := [], active := true })] = some b →
      b.active = true ∧
      kazi_commit "m" "ts"
        { initialized := true, staging := ["f"], commits := [],
          branches := [("a", { commits := [], active := true }),
                       ("b", { commits := [], active := true })] } = .ok
        { initialized := true, staging := [],
          commits := [{ id := 1, message := "m", files := ["f"], timestamp := "ts" }],
          branches := appendToBranchCommits n 1
            [("a", { commits := [], active := true }),
             ("b", { commits := [], active := true })] }) :=
  kazi_commit_active_branch_resolution "m" "ts"
    { initialized := true, staging := ["f"], commits := [],
      branches := [("a", { commits := [], active := true }),
                   ("b", { commits := [], active := true })] }
    rfl (by decide) (by decide)

/-- C7: `commit` on an initialized repository with empty staging fails with
`NothingToCommit` (the Python early return `"No files to commit."`); the
error result means no collection was written, so the commit log, staging
set and branch table are unchanged. -/
theorem kazi_commit_empty_staging_fails (message timestamp : String) (st : KaziState)
    (h_init : st.initialized = true) (h_empty : st.staging = []) :
    kazi_commit message timestamp st = .error .nothingToCommit := by
  simp [kazi_commit, h_init, h_empty]

/-- Witness for C7 at the freshly initialized state. -/
theorem kazi_commit_empty_staging_fails_witness :
    kazi_commit "first" "2024-01-01T00:00:00" initialState = .error .nothingToCommit :=
  kazi_commit_empty_staging_fails "first" "2024-01-01T00:00:00" initialState rfl rfl

/-- C8: for two existing branches, the two sets returned by `kazi_diff`
are disjoint, and their union together with the intersection of the two
branches' commit-ID sets equals the union of those sets. -/
theorem kazi_diff_partition (branch1 branch2 : String) (st : KaziState)
    (b1 b2 : Branch)
    (h_init : st.initialized = true)
    (h1 : lookupBranch branch1 st.branches = some b1)
    (h2 : lookupBranch branch2 st.branches = some b2) :
    kazi_diff branch1 branch2 st =
      .ok (b1.commits.toFinset \ b2.commits.toFinset,
           b2.commits.toFinset \ b1.commits.toFinset) ∧
    (b1.commits.toFinset \ b2.commits.toFinset) ∩
      (b2.commits.toFinset \ b1.commits.toFinset) = ∅ ∧
    (b1.commits.toFinset \ b2.commits.toFinset) ∪
      (b2.commits.toFinset \ b1.commits.toFinset) ∪
      (b1.commits.toFinset ∩ b2.commits.toFinset) =
      b1.commits.toFinset ∪ b2.commits.toFinset := by
  refine ⟨by simp [kazi_diff, h_init, h1, h2], ?_, ?_⟩
  · apply Finset.eq_empty_of_forall_not_mem
    intro x hx
    simp only [Finset.mem_inter, Finset.mem_sdiff] at hx
    exact hx.1.2 hx.2.1
  · apply Finset.ext
    intro x
    simp only [Finset.mem_union, Finset.mem_sdiff, Finset.mem_inter]
    tauto

/-- Witness for C8 at a concrete state with overlapping branch histories. -/
theorem kazi_diff_partition_witness :
    kazi_diff "main" "feature"
      { initialized := true, staging := [], commits := [],
        branches := [("main", { commits := [1, 2], active := true }),
                     ("feature", { commits := [2, 3], active := false })] } =
      .ok (([1, 2] : List Nat).toFinset \ ([2, 3] : List Nat).toFinset,
           ([2, 3] : List Nat).toFinset \ ([1, 2] : List Nat).toFinset) ∧
    (([1, 2] : List Nat).toFinset \ ([2, 3] : List Nat).toFinset) ∩
      (([2, 3] : List Nat).toFinset \ ([1, 2] : List Nat).toFinset) = ∅ ∧
    (([1, 2] : List Nat).toFinset \ ([2, 3] : List Nat).toFinset) ∪
      (([2, 3] : List Nat).toFinset \ ([1, 2] : List Nat).toFinset) ∪
      (([1, 2] : List Nat).toFinset ∩ ([2, 3] : List Nat).toFinset) =
      ([1, 2] : List Nat).toFinset ∪ ([2, 3] : List Nat).toFinset :=
  kazi_diff_partition "main" "feature"
    { initialized := true, staging := [], commits := [],
      branches := [("main", { commits := [1, 2], active := true }),
                   ("feature", { commits := [2, 3], active := false })] }
    { commits := [1, 2], active := true } { commits := [2, 3], active := false }
    rfl (by decide) (by decide)
